import Mathlib

/-!
Verification development for the documind RAG engine.

Shallow embedding of the Python sources:
  * `src/documind/tools/chunker.py`   (DocumentChunker)
  * `src/documind/agents/qa_agent.py` (QAAgent)
  * `src/documind/memory/memory_bank.py` (MemoryBank)

Conventions: Python ints are `Nat`/`Int`, floats are `ℚ`, dicts keyed by
strings are association lists, `None`-able values are `Option`.
-/

namespace Documind

/-! ## Chunker — src/documind/tools/chunker.py -/

/-- Python `str.split()`: split on runs of whitespace, dropping empty pieces.
`wordsAux acc cs` carries the (reversed) characters of the word being built. -/
def wordsAux : List Char → List Char → List String
  | acc, [] => if acc = [] then [] else [String.mk acc.reverse]
  | acc, c :: t =>
    if c.isWhitespace then
      (if acc = [] then wordsAux [] t else String.mk acc.reverse :: wordsAux [] t)
    else wordsAux (c :: acc) t

/-- Python `text.split()`. -/
def pySplit (s : String) : List String := wordsAux [] s.data

/-- Python `len(word) + 1` — the word length plus one for the following space,
exactly the `word_length` accounting of `chunk_text`. -/
def wlen (w : String) : Nat := w.length + 1

/-- The `current_length` of a buffer: `sum(len(w) + 1 for w in current_chunk)`. -/
def blen (b : List String) : Nat := (b.map wlen).sum

/-- Python list slicing `l[s:]` for a non-positive start `s = -k` with
`k ≥ 0`: the whole list when `k = 0` (a start index of `0`), otherwise the
trailing `min k (length l)` items. -/
def pyTailSlice (l : List String) (k : Nat) : List String :=
  if k = 0 then l else l.drop (l.length - k)

/-- The overlap seeding of `chunk_text`:
`current_chunk[-self.chunk_overlap//10:] if len(current_chunk) > self.chunk_overlap//10 else []`.
Unary minus binds tighter than floor division, so the slice start is
`(-co) // 10 = -((co + 9) / 10)` — minus the ceiling of `co / 10` — while the
guard compares the word count against the floor `co / 10`: the seed is the
trailing `(co + 9) / 10` words (the whole buffer when `co = 0`, a start index
of `0`) whenever the buffer holds more than `co / 10` words. -/
def seedOf (co : Nat) (b : List String) : List String :=
  if b.length > co / 10 then pyTailSlice b ((co + 9) / 10) else []

/-- One iteration of the `for word in words` loop of `chunk_text`.
State: `(chunks accumulated so far, current_chunk)`. -/
def chunkStep (cs co : Nat) (st : List (List String) × List String) (w : String) :
    List (List String) × List String :=
  if blen st.2 + wlen w > cs ∧ st.2 ≠ [] then
    (st.1 ++ [st.2], seedOf co st.2 ++ [w])
  else
    (st.1, st.2 ++ [w])

/-- The trailing `if current_chunk:` flush of `chunk_text`. -/
def chunkFinish (st : List (List String) × List String) : List (List String) :=
  if st.2 ≠ [] then st.1 ++ [st.2] else st.1

/-- Word-level content of `DocumentChunker.chunk_text(text)`: the list of chunk
word buffers, for `chunk_size = cs` and `chunk_overlap = co`. -/
def chunkWords (cs co : Nat) (ws : List String) : List (List String) :=
  chunkFinish (ws.foldl (chunkStep cs co) ([], []))

/-- The chunk dict built at each emission point of `chunk_text`. -/
structure Chunk where
  text : String
  char_count : Nat
  word_count : Nat
  chunk_index : Nat
deriving DecidableEq

/-- Packaging of one emitted buffer as a chunk dict. -/
def mkChunk (i : Nat) (b : List String) : Chunk :=
  let t := String.intercalate " " b
  { text := t, char_count := t.length, word_count := b.length, chunk_index := i }

/-- Embedding of `DocumentChunker.chunk_text` for `chunk_size = cs`, `chunk_overlap = co`. -/
def chunk_text (cs co : Nat) (text : String) : List Chunk :=
  ((chunkWords cs co (pySplit text)).enum).map (fun p => mkChunk p.1 p.2)

/-- One entry of `pages_metadata` (see `reader.py`: `char_count` is the length
of that page's own text). -/
structure PageMeta where
  page : Int
  char_count : Nat
deriving DecidableEq

/-- Python string slicing `s[a : a + n]`. -/
def pySlice (s : String) (a n : Nat) : String := String.mk ((s.data.drop a).take n)

/-- One iteration of the page-splitting loop of `chunk_with_pages`.
State: `(page_texts, current_page, page_start)`. -/
def pageSplitStep (text : String) (st : List (Int × String) × Int × Nat) (m : PageMeta) :
    List (Int × String) × Int × Nat :=
  if m.page > st.2.1 then
    (st.1 ++ [(st.2.1, pySlice text st.2.2 m.char_count)], m.page, st.2.2 + m.char_count)
  else st

/-- The page-splitting phase of `DocumentChunker.chunk_with_pages`:
initial state `current_page = 1`, `page_start = 0`, plus the trailing
`if page_start < len(text)` flush. -/
def pageSplit (text : String) (metas : List PageMeta) : List (Int × String) :=
  let st := metas.foldl (pageSplitStep text) ([], 1, 0)
  if st.2.2 < text.length then st.1 ++ [(st.2.1, String.mk (text.data.drop st.2.2))] else st.1

/-- Embedding of `DocumentChunker.chunk_with_pages`: chunk each page section and stamp each
chunk with that section's page number. -/
def chunk_with_pages (cs co : Nat) (text : String) (metas : List PageMeta) :
    List (Int × Chunk) :=
  ((pageSplit text metas).map
    (fun pt => (chunk_text cs co pt.2).map (fun c => (pt.1, c)))).flatten

/-- Follows the spec's words (for comparison with `pageSplit`): partition the
full text into per-page substrings by cumulative character counts — page `p`
receives the slice starting at the sum of the `char_count`s of the pages
listed before it, of length its own `char_count`. -/
def pagePartitionSpec (text : String) (metas : List PageMeta) : List (Int × String) :=
  (metas.foldl
    (fun (st : List (Int × String) × Nat) m =>
      (st.1 ++ [(m.page, pySlice text st.2 m.char_count)], st.2 + m.char_count))
    ([], 0)).1

/-- Follows the amended description of the chunking loop: emit the running
buffer exactly when it is non-empty and adding the next word (its length plus
one separator) would push the running length over `cs`; the next buffer is
seeded with `seedOf co` of the emitted buffer — the trailing `(co + 9) / 10`
(ceiling of `co / 10`) words when the buffer holds more than `co / 10` words
(the whole buffer when `co = 0`), and nothing otherwise.  The final non-empty
buffer is emitted. -/
def chunkWordsSpec (cs co : Nat) : List String → List String → List (List String)
  | buf, [] => if buf ≠ [] then [buf] else []
  | buf, w :: ws =>
    if blen buf + wlen w > cs ∧ buf ≠ [] then
      buf :: chunkWordsSpec cs co (seedOf co buf ++ [w]) ws
    else
      chunkWordsSpec cs co (buf ++ [w]) ws

lemma chunkFinish_foldl_eq (cs co : Nat) :
    ∀ (ws : List String) (acc : List (List String)) (buf : List String),
      chunkFinish (ws.foldl (chunkStep cs co) (acc, buf))
        = acc ++ chunkWordsSpec cs co buf ws := by
  intro ws
  induction ws with
  | nil =>
    intro acc buf
    by_cases h : buf = [] <;> simp [chunkFinish, chunkWordsSpec, h]
  | cons w ws ih =>
    intro acc buf
    rw [List.foldl_cons]
    by_cases h : blen buf + wlen w > cs ∧ buf ≠ []
    · simp only [chunkStep, if_pos h, ih, chunkWordsSpec, if_pos h]
      simp
    · simp only [chunkStep, if_neg h, ih, chunkWordsSpec, if_neg h]

lemma chunkWords_eq_spec (cs co : Nat) (ws : List String) :
    chunkWords cs co ws = chunkWordsSpec cs co [] ws := by
  simpa using chunkFinish_foldl_eq cs co ws [] []

/-! Coverage: removing each chunk's seed recovers the original word stream. -/

/-- Remove from every chunk (after the first) the words it was seeded with
from its predecessor, and concatenate what remains. -/
def dropSeedsFrom (co : Nat) : List String → List (List String) → List String
  | _, [] => []
  | prev, c :: rest => c.drop (seedOf co prev).length ++ dropSeedsFrom co c rest

/-- Concatenation of the chunk word lists with seeded overlap words removed. -/
def chunkJoin (co : Nat) : List (List String) → List String
  | [] => []
  | c :: rest => c ++ dropSeedsFrom co c rest

lemma seedOf_length_le (co : Nat) (b : List String) :
    (seedOf co b).length ≤ b.length := by
  unfold seedOf pyTailSlice
  by_cases h : b.length > co / 10
  · rw [if_pos h]
    by_cases h0 : (co + 9) / 10 = 0
    · rw [if_pos h0]
    · rw [if_neg h0]
      simp only [List.length_drop]
      omega
  · rw [if_neg h]
    simp

lemma dropSeedsFrom_spec (cs co : Nat) :
    ∀ (ws b prev : List String), b ≠ [] → (seedOf co prev).length ≤ b.length →
      dropSeedsFrom co prev (chunkWordsSpec cs co b ws)
        = b.drop (seedOf co prev).length ++ ws := by
  intro ws
  induction ws with
  | nil =>
    intro b prev hb _
    simp [chunkWordsSpec, hb, dropSeedsFrom]
  | cons w ws ih =>
    intro b prev hb hk
    by_cases h : blen b + wlen w > cs ∧ b ≠ []
    · simp only [chunkWordsSpec, if_pos h, dropSeedsFrom]
      rw [ih (seedOf co b ++ [w]) b (by simp) (by simp)]
      rw [List.drop_left]
      simp
    · simp only [chunkWordsSpec, if_neg h]
      rw [ih (b ++ [w]) prev (by simp) (le_trans hk (by simp))]
      rw [List.drop_append_of_le_length hk]
      simp

lemma chunkJoin_spec (cs co : Nat) :
    ∀ (ws buf : List String), chunkJoin co (chunkWordsSpec cs co buf ws) = buf ++ ws := by
  intro ws
  induction ws with
  | nil =>
    intro buf
    by_cases hb : buf = [] <;> simp [chunkWordsSpec, hb, chunkJoin, dropSeedsFrom]
  | cons w ws ih =>
    intro buf
    by_cases h : blen buf + wlen w > cs ∧ buf ≠ []
    · simp only [chunkWordsSpec, if_pos h, chunkJoin]
      rw [dropSeedsFrom_spec cs co ws (seedOf co buf ++ [w]) buf (by simp) (by simp)]
      rw [List.drop_left]
      simp
    · simp only [chunkWordsSpec, if_neg h, ih]
      simp

/-- The literal reading of "the trailing `overlap` characters' worth of words":
the longest trailing run of words of the buffer whose joined text fits within
`co` characters. -/
def literalTrailingWorth (co : Nat) (b : List String) : List String :=
  match (List.range (b.length + 1)).find?
      (fun k => (String.intercalate " " (b.drop k)).length ≤ co) with
  | some k => b.drop k
  | none => []

/-- Decidable rendering, at word level, of the literal claim "the next Passage
is seeded with the trailing `overlap` characters' worth of words from the
previous Passage": every chunk after the first starts with the literal
trailing worth of its predecessor. -/
def literalSeedsOk (co : Nat) (cws : List (List String)) : Bool :=
  (cws.zip cws.tail).all
    (fun pq => pq.2.take (literalTrailingWorth co pq.1).length == literalTrailingWorth co pq.1)

/-- The relation holding between consecutive emitted chunks: the previous
buffer was non-empty, and the next chunk is the previous chunk's seed followed
by a fresh word whose addition would have pushed the previous buffer over the
target size. -/
def boundaryOk (cs co : Nat) (prev next : List String) : Prop :=
  prev ≠ [] ∧ ∃ w rest, next = seedOf co prev ++ w :: rest ∧ blen prev + wlen w > cs

lemma chunkWordsSpec_head (cs co : Nat) :
    ∀ (ws b : List String), b ≠ [] →
      ∃ t, (chunkWordsSpec cs co b ws).head? = some (b ++ t) := by
  intro ws
  induction ws with
  | nil =>
    intro b hb
    exact ⟨[], by simp [chunkWordsSpec, hb]⟩
  | cons w ws ih =>
    intro b hb
    by_cases h : blen b + wlen w > cs ∧ b ≠ []
    · exact ⟨[], by simp [chunkWordsSpec, if_pos h]⟩
    · rcases ih (b ++ [w]) (by simp) with ⟨t, ht⟩
      refine ⟨[w] ++ t, ?_⟩
      rw [chunkWordsSpec, if_neg h, ht]
      simp

lemma chunkWordsSpec_chain (cs co : Nat) :
    ∀ (ws b : List String),
      List.Chain' (boundaryOk cs co) (chunkWordsSpec cs co b ws) := by
  intro ws
  induction ws with
  | nil =>
    intro b
    by_cases hb : b = [] <;> simp [chunkWordsSpec, hb]
  | cons w ws ih =>
    intro b
    by_cases h : blen b + wlen w > cs ∧ b ≠ []
    · rw [chunkWordsSpec, if_pos h]
      refine List.chain'_cons'.mpr ⟨?_, ih (seedOf co b ++ [w])⟩
      intro y hy
      rcases chunkWordsSpec_head cs co ws (seedOf co b ++ [w]) (by simp) with ⟨t, ht⟩
      rw [ht] at hy
      rcases Option.mem_some_iff.mp hy with rfl
      exact ⟨h.2, w, t, by simp, h.1⟩
    · rw [chunkWordsSpec, if_neg h]
      exact ih (b ++ [w])

/-! ### Claim C4 -/

/-- Claim C4, counterexample to the literal wording: with `chunk_size = 8` and
`overlap = 5`, the code's slice `current_chunk[-5//10:]` is
`current_chunk[-1:]` (unary minus binds tighter than floor division), so each
emitted chunk is seeded with just the last word of its predecessor — two
characters — although the trailing 5 characters' worth of words of the first
chunk `"aa bb"` is that whole two-word chunk; the produced chunks are
`"aa bb"`, `"bb cc"`, `"cc dd"`, none seeded with 5 characters' worth. -/
theorem chunk_text_literal_overlap_counterexample :
    chunkWords 8 5 (pySplit "aa bb cc dd")
        = [["aa", "bb"], ["bb", "cc"], ["cc", "dd"]]
      ∧ literalTrailingWorth 5 ["aa", "bb"] = ["aa", "bb"]
      ∧ literalSeedsOk 5 (chunkWords 8 5 (pySplit "aa bb cc dd")) = false := by
  refine ⟨by decide, by decide, by decide⟩

/-- Claim C4, amended: the chunker emits a Passage exactly when the running
buffer is non-empty and adding the next word (its length plus one separator
character) would push the running character count over `target_size`; the next
Passage is seeded with the trailing `(overlap + 9) / 10` words — the ceiling
of `overlap / 10`, since the Python slice start `-overlap//10` parses as
`(-overlap) // 10` — of the previous Passage when the previous Passage has
more than `overlap / 10` (floor) words, the whole previous Passage when
`overlap = 0`, and with no words otherwise; the final non-empty buffer is
emitted as a trailing Passage.  `chunkWordsSpec` states exactly this emission
rule, `chunk_text` realises it, and consecutive emitted chunks always satisfy
the boundary relation: the next chunk is the previous one's seed plus a fresh
word whose addition would have exceeded the target. -/
theorem chunk_text_emission_rule (cs co : Nat) (text : String) :
    chunk_text cs co text
      = ((chunkWordsSpec cs co [] (pySplit text)).enum).map
          (fun p => mkChunk p.1 p.2)
    ∧ List.Chain' (boundaryOk cs co) (chunkWords cs co (pySplit text)) := by
  constructor
  · unfold chunk_text
    rw [chunkWords_eq_spec]
  · rw [chunkWords_eq_spec]
    exact chunkWordsSpec_chain cs co (pySplit text) []

/-! ### Claim C7 -/

/-- Claim C7: the concatenation of the chunk word buffers produced by
`chunk_text`, with each chunk's seeded overlap words removed, is exactly the
original text's word sequence, in order. -/
theorem chunk_coverage (cs co : Nat) (text : String) :
    chunkJoin co (chunkWords cs co (pySplit text)) = pySplit text := by
  rw [chunkWords_eq_spec]
  simpa using chunkJoin_spec cs co (pySplit text) []

/-! ### Claim C1 -/

/-- Claim C1, code bug: `chunk_with_pages` slices the text for the page being
flushed using the `char_count` of the metadata entry that *triggered* the
flush — the next page's length — instead of the flushed page's own length.
With pages of 5 and 3 characters over `"abcdefgh"`, the cumulative character
ranges put `"abcde"` on page 1 and `"fgh"` on page 2 (`pagePartitionSpec`),
but the code emits a passage `"abc"` tagged page 1 and a passage `"defgh"`
tagged page 2 whose source characters `"de"` lie in page 1's range. -/
theorem chunk_with_pages_mislabels_pages :
    (chunk_with_pages 1000 200 "abcdefgh" [⟨1, 5⟩, ⟨2, 3⟩]).map
        (fun pc => (pc.1, pc.2.text))
      = [(1, "abc"), (2, "defgh")]
    ∧ pagePartitionSpec "abcdefgh" [⟨1, 5⟩, ⟨2, 3⟩] = [(1, "abcde"), (2, "fgh")] := by
  refine ⟨by decide, by decide⟩

/-! ## Q&A agent — src/documind/agents/qa_agent.py -/

/-- Python `str.lower()`. -/
def pyLower (s : String) : String := String.map Char.toLower s

/-- Python `s[:n]`. -/
def pyTake (n : Nat) (s : String) : String := String.mk (s.data.take n)

/-- Does `hay` start with `needle`? -/
def lStarts : List Char → List Char → Bool
  | _, [] => true
  | [], _ :: _ => false
  | a :: as, b :: bs => a == b && lStarts as bs

/-- Python substring containment `needle in hay` on character lists. -/
def lContains (needle : List Char) : List Char → Bool
  | [] => lStarts [] needle
  | c :: t => lStarts (c :: t) needle || lContains needle t

/-- Python `needle in hay` on strings. -/
def strContains (hay needle : String) : Bool := lContains needle.data hay.data

/-- Python `set(word.lower() for word in question.split() if len(word) > 3)`;
the set is used only for its size and membership, so it is modelled as the
duplicate-free list of first occurrences. -/
def questionKeywords (q : String) : List String :=
  (((pySplit q).filter (fun w => w.length > 3)).map pyLower).dedup

/-- Sentence score: `matches / len(question_keywords)` where `matches` counts
keywords occurring as substrings of the lowercased sentence; `0` when there
are no keywords. -/
def scoreOf (kws : List String) (s : String) : ℚ :=
  if kws = [] then 0
  else (kws.countP (fun k => strContains (pyLower s) k) : ℚ) / (kws.length : ℚ)

/-- Python `[(sentence, score) for sentence in sentences]`. -/
def scoredSentences (q : String) (sentences : List String) : List (String × ℚ) :=
  sentences.map (fun s => (s, scoreOf (questionKeywords q) s))

/-- Stable insertion of one scored sentence into a descending-by-score list:
it lands before the first element whose score is `≤` its own, hence after all
earlier-inserted elements of strictly greater score and before all elements of
equal or smaller score. -/
def insertDesc (x : String × ℚ) : List (String × ℚ) → List (String × ℚ)
  | [] => [x]
  | y :: ys => if y.2 ≤ x.2 then x :: y :: ys else y :: insertDesc x ys

/-- Model of Python `list.sort(key=lambda x: x[1], reverse=True)` — the stable
descending sort by score. -/
def sortDesc (l : List (String × ℚ)) : List (String × ℚ) := l.foldr insertDesc []

/-- Model of `re.sub` with pattern `\s+`: collapse every whitespace run to one space. -/
def collapseWS : List Char → List Char
  | [] => []
  | [c] => if c.isWhitespace then [' '] else [c]
  | c₁ :: c₂ :: t =>
    if c₁.isWhitespace && c₂.isWhitespace then collapseWS (c₂ :: t)
    else (if c₁.isWhitespace then ' ' else c₁) :: collapseWS (c₂ :: t)

/-- Python `str.strip()` on character lists. -/
def pyStrip (l : List Char) : List Char :=
  ((l.dropWhile Char.isWhitespace).reverse.dropWhile Char.isWhitespace).reverse

/-- The `re.sub(r'\s+', ' ', answer).strip()` clean-up step. -/
def normalizeAnswer (s : String) : String := String.mk (pyStrip (collapseWS s.data))

/-- A retrieved chunk as assembled by `_retrieve_relevant_chunks` (and as
consumed by `_generate_extractive_answer` / `_calculate_confidence`);
`distance` is `none` when the dict lacks the `"distance"` key. -/
structure RChunk where
  text : String
  page : Int
  chunk_index : Nat
  distance : Option ℚ
deriving DecidableEq

/-- Embedding of `QAAgent._generate_extractive_answer`.  The sentence tokenizer
(`nltk.sent_tokenize` applied to the `"\n\n"`-joined chunk texts) is an
external trained model, so the resulting sentence list is a parameter. -/
def generate_extractive_answer (q : String) (chunks : List RChunk)
    (sentences : List String) : String :=
  if (((sortDesc (scoredSentences q sentences)).take 3).filter
        (fun p => decide (0 < p.2))).map Prod.fst ≠ [] then
    normalizeAnswer (String.intercalate " "
      ((((sortDesc (scoredSentences q sentences)).take 3).filter
          (fun p => decide (0 < p.2))).map Prod.fst))
  else
    match chunks with
    | [] => "I couldn't find a specific answer to your question."
    | c :: _ => pyTake 500 c.text

lemma mem_insertDesc (x z : String × ℚ) (l : List (String × ℚ)) :
    z ∈ insertDesc x l ↔ z = x ∨ z ∈ l := by
  induction l with
  | nil => simp [insertDesc]
  | cons y ys ih =>
    by_cases h : y.2 ≤ x.2
    · simp [insertDesc, h]
    · simp only [insertDesc, if_neg h, List.mem_cons, ih]
      tauto

lemma mem_sortDesc (z : String × ℚ) (l : List (String × ℚ)) :
    z ∈ sortDesc l ↔ z ∈ l := by
  induction l with
  | nil => simp [sortDesc]
  | cons y ys ih =>
    simp only [sortDesc, List.foldr_cons] at ih ⊢
    rw [mem_insertDesc, ih, List.mem_cons]

lemma insertDesc_pairwise (x : String × ℚ) (l : List (String × ℚ))
    (h : l.Pairwise (fun a b => b.2 ≤ a.2)) :
    (insertDesc x l).Pairwise (fun a b => b.2 ≤ a.2) := by
  induction l with
  | nil => simp [insertDesc]
  | cons y ys ih =>
    rcases List.pairwise_cons.mp h with ⟨hy, hys⟩
    by_cases hc : y.2 ≤ x.2
    · rw [insertDesc, if_pos hc]
      refine List.pairwise_cons.mpr ⟨?_, h⟩
      intro z hz
      rcases List.mem_cons.mp hz with hz | hz
      · exact hz ▸ hc
      · exact le_trans (hy z hz) hc
    · rw [insertDesc, if_neg hc]
      refine List.pairwise_cons.mpr ⟨?_, ih hys⟩
      intro z hz
      rcases (mem_insertDesc x z ys).mp hz with hz | hz
      · exact hz ▸ le_of_lt (lt_of_not_le hc)
      · exact hy z hz

lemma sortDesc_sorted (l : List (String × ℚ)) :
    (sortDesc l).Pairwise (fun a b => b.2 ≤ a.2) := by
  induction l with
  | nil => simp [sortDesc]
  | cons y ys ih => exact insertDesc_pairwise y (sortDesc ys) ih

lemma insertDesc_filter_eq (x : String × ℚ) (l : List (String × ℚ)) (v : ℚ) :
    (insertDesc x l).filter (fun p => decide (p.2 = v))
      = (x :: l).filter (fun p => decide (p.2 = v)) := by
  induction l with
  | nil => simp [insertDesc]
  | cons y ys ih =>
    by_cases hc : y.2 ≤ x.2
    · rw [insertDesc, if_pos hc]
    · rw [insertDesc, if_neg hc]
      by_cases hx : x.2 = v
      · have hy : ¬ y.2 = v := by
          intro hyv
          exact hc (le_of_eq (hyv.trans hx.symm))
        simp only [List.filter_cons, hx, hy, decide_eq_true_eq, if_pos, if_neg,
          decide_True, decide_False, Bool.false_eq_true, ite_false, ite_true] at ih ⊢
        simpa [List.filter_cons, hy] using ih
      · simp only [List.filter_cons] at ih ⊢
        by_cases hy : y.2 = v <;> simp [hx, hy] at ih ⊢ <;> simpa [hx] using ih

lemma sortDesc_filter_eq (l : List (String × ℚ)) (v : ℚ) :
    (sortDesc l).filter (fun p => decide (p.2 = v))
      = l.filter (fun p => decide (p.2 = v)) := by
  induction l with
  | nil => rfl
  | cons y ys ih =>
    have : sortDesc (y :: ys) = insertDesc y (sortDesc ys) := rfl
    rw [this, insertDesc_filter_eq, List.filter_cons, List.filter_cons, ih]

lemma takeWhile_take (p : String × ℚ → Bool) :
    ∀ (l : List (String × ℚ)) (n : Nat),
      (l.take n).takeWhile p = (l.takeWhile p).take n := by
  intro l
  induction l with
  | nil => intro n; simp
  | cons x t ih =>
    intro n
    cases n with
    | zero => simp [List.takeWhile]
    | succ m =>
      by_cases hx : p x
      · simp [List.takeWhile_cons, hx, ih m]
      · simp [List.takeWhile_cons, hx]

lemma sorted_filter_eq_takeWhile :
    ∀ l : List (String × ℚ), l.Pairwise (fun a b => b.2 ≤ a.2) →
      l.filter (fun p => decide (0 < p.2)) = l.takeWhile (fun p => decide (0 < p.2)) := by
  intro l
  induction l with
  | nil => intro _; rfl
  | cons x t ih =>
    intro h
    rcases List.pairwise_cons.mp h with ⟨hx, ht⟩
    by_cases hp : 0 < x.2
    · simp [List.filter_cons, List.takeWhile_cons, hp, ih ht]
    · have hnil : t.filter (fun p => decide (0 < p.2)) = [] := by
        rw [List.filter_eq_nil_iff]
        intro z hz
        simp only [decide_eq_true_eq]
        intro h0
        exact hp (lt_of_lt_of_le h0 (hx z hz))
      simp [List.filter_cons, List.takeWhile_cons, hp, hnil]

lemma sorted_take_filter (l : List (String × ℚ))
    (h : l.Pairwise (fun a b => b.2 ≤ a.2)) (n : Nat) :
    (l.take n).filter (fun p => decide (0 < p.2))
      = (l.filter (fun p => decide (0 < p.2))).take n := by
  have hs : (l.take n).Pairwise (fun a b => b.2 ≤ a.2) :=
    List.Pairwise.sublist (List.take_sublist n l) h
  rw [sorted_filter_eq_takeWhile (l.take n) hs, takeWhile_take, sorted_filter_eq_takeWhile l h]

/-! ### Claim C2 -/

/-- Claim C2: on a non-empty retrieved-chunk list, the extractive composer
scores every sentence by the fraction of question keywords (words longer than
3 characters, case-insensitive) it contains (`scoredSentences`), orders them
by a stable descending sort — scores are non-increasing, and within any equal
score class the original sentence order is kept — and returns the cleaned-up
join of the top 3 sentences with nonzero score; when no sentence scores above
zero it returns the first 500 characters of the top-ranked chunk. -/
theorem extractive_answer_spec (q : String) (c : RChunk) (rest : List RChunk)
    (sentences : List String) :
    (sortDesc (scoredSentences q sentences)).Pairwise (fun a b => b.2 ≤ a.2)
    ∧ (∀ v : ℚ, (sortDesc (scoredSentences q sentences)).filter (fun p => decide (p.2 = v))
          = (scoredSentences q sentences).filter (fun p => decide (p.2 = v)))
    ∧ ((((sortDesc (scoredSentences q sentences)).filter (fun p => decide (0 < p.2))).take 3 = [])
          ↔ ∀ p ∈ scoredSentences q sentences, ¬ 0 < p.2)
    ∧ generate_extractive_answer q (c :: rest) sentences
        = (if ((sortDesc (scoredSentences q sentences)).filter
                (fun p => decide (0 < p.2))).take 3 = []
           then pyTake 500 c.text
           else normalizeAnswer (String.intercalate " "
               ((((sortDesc (scoredSentences q sentences)).filter
                   (fun p => decide (0 < p.2))).take 3).map Prod.fst))) := by
  have hsorted := sortDesc_sorted (scoredSentences q sentences)
  have hswap := sorted_take_filter (sortDesc (scoredSentences q sentences)) hsorted 3
  refine ⟨hsorted, fun v => sortDesc_filter_eq _ v, ?_, ?_⟩
  · rw [List.take_eq_nil_iff]
    constructor
    · rintro (h3 | hnil)
      · exact absurd h3 (by decide)
      · intro p hp
        have : p ∉ (sortDesc (scoredSentences q sentences)).filter
            (fun p => decide (0 < p.2)) := by rw [hnil]; exact List.not_mem_nil p
        intro h0
        exact this (List.mem_filter.mpr ⟨(mem_sortDesc p _).mpr hp, by simpa using h0⟩)
    · intro hall
      right
      rw [List.filter_eq_nil_iff]
      intro p hp
      simpa using hall p ((mem_sortDesc p _).mp hp)
  · rw [generate_extractive_answer, hswap]
    have hAB : ((((sortDesc (scoredSentences q sentences)).filter
          (fun p => decide (0 < p.2))).take 3).map Prod.fst = [])
        ↔ (((sortDesc (scoredSentences q sentences)).filter
          (fun p => decide (0 < p.2))).take 3 = []) := List.map_eq_nil_iff
    by_cases hnil : ((sortDesc (scoredSentences q sentences)).filter
        (fun p => decide (0 < p.2))).take 3 = []
    · rw [if_neg (not_not_intro (hAB.mpr hnil)), if_pos hnil]
    · rw [if_pos (fun h => hnil (hAB.mp h)), if_neg hnil]

/-! ### Confidence scorer — `QAAgent._calculate_confidence` -/

/-- Python `sum(c.get("distance", 1.0) for c in chunks) / len(chunks)`. -/
def avgDistance (chunks : List RChunk) : ℚ :=
  ((chunks.map (fun c => c.distance.getD 1)).sum) / (chunks.length : ℚ)

/-- The passage-count boost: `+0.2` for 2 or more chunks, else `+0.1` for
exactly one. -/
def countBoost (chunks : List RChunk) : ℚ :=
  if 2 ≤ chunks.length then 1/5 else if chunks.length = 1 then 1/10 else 0

/-- Python `"distance" in chunks[0]`: the first retrieved dict carries a distance. -/
def distancePresent (chunks : List RChunk) : Bool :=
  match chunks.head? with
  | some c => c.distance.isSome
  | none => false

/-- The distance adjustment: average the running confidence with
`max(0, 1 - avg_distance)` when the first chunk carries a distance. -/
def distanceAdjust (b : ℚ) (chunks : List RChunk) : ℚ :=
  if distancePresent chunks then (b + max 0 (1 - avgDistance chunks)) / 2 else b

/-- The answer-quality boost: `+0.1` when the answer exceeds 50 characters. -/
def lengthBoost (b : ℚ) (answer : String) : ℚ :=
  if 50 < answer.length then b + 1/10 else b

/-- Embedding of `QAAgent._calculate_confidence(question, answer, chunks)` (the `question`
argument is unused by the source as well); the final step is
`min(1.0, base_confidence)`. -/
def calculate_confidence (question answer : String) (chunks : List RChunk) : ℚ :=
  if chunks = [] then 0
  else min 1 (lengthBoost (distanceAdjust (1/2 + countBoost chunks) chunks) answer)

/-- Follows the claim's words: start at 0.5; add 0.2 if at least two passages
were retrieved, else add 0.1 (exactly one was); if distance values are
present, average the running confidence with `max(0, 1 - avgDistance)`; add
0.1 if the answer exceeds 50 characters; clamp the result to `[0, 1]`. -/
def confidenceSpec (answer : String) (chunks : List RChunk) : ℚ :=
  if chunks = [] then 0
  else
    max 0 (min 1 (lengthBoost
      (distanceAdjust (1/2 + (if 2 ≤ chunks.length then 1/5 else 1/10)) chunks) answer))

lemma countBoost_nonneg (chunks : List RChunk) : 0 ≤ countBoost chunks := by
  unfold countBoost
  split_ifs <;> norm_num

lemma distanceAdjust_nonneg (b : ℚ) (chunks : List RChunk) (hb : 0 ≤ b) :
    0 ≤ distanceAdjust b chunks := by
  unfold distanceAdjust
  split_ifs
  · have := le_max_left (0 : ℚ) (1 - avgDistance chunks)
    linarith
  · exact hb

lemma lengthBoost_nonneg (b : ℚ) (answer : String) (hb : 0 ≤ b) :
    0 ≤ lengthBoost b answer := by
  unfold lengthBoost
  split_ifs <;> linarith

lemma confidence_core_nonneg (answer : String) (chunks : List RChunk) :
    0 ≤ lengthBoost (distanceAdjust (1/2 + countBoost chunks) chunks) answer := by
  refine lengthBoost_nonneg _ _ (distanceAdjust_nonneg _ _ ?_)
  have := countBoost_nonneg chunks
  linarith

/-! ### Claim C3 -/

/-- Claim C3: on every answer string and non-empty retrieved list the
confidence equals the stated heuristic computed literally — base 0.5, the
passage-count boost (0.2 for at least two, 0.1 for exactly one), averaging
with `max(0, 1 - avgDistance)` when distances are present, the +0.1 long
answer boost, and a final clamp to `[0, 1]` (the code's `min(1.0, ·)` agrees
with the two-sided clamp because the running value is provably never
negative); on the empty list both sides are 0. -/
theorem calculate_confidence_eq_spec (question answer : String) (chunks : List RChunk) :
    calculate_confidence question answer chunks = confidenceSpec answer chunks := by
  unfold calculate_confidence confidenceSpec
  by_cases hnil : chunks = []
  · simp [hnil]
  · rw [if_neg hnil, if_neg hnil]
    have hboost : countBoost chunks = if 2 ≤ chunks.length then 1/5 else 1/10 := by
      unfold countBoost
      by_cases h2 : 2 ≤ chunks.length
      · simp [h2]
      · have h1 : chunks.length = 1 := by
          have := List.length_pos.mpr hnil
          omega
        simp [h2, h1]
    rw [← hboost]
    have h0 : 0 ≤ min 1 (lengthBoost (distanceAdjust (1/2 + countBoost chunks) chunks) answer) :=
      le_min (by norm_num) (confidence_core_nonneg answer chunks)
    exact (max_eq_right h0).symm

/-! ### Claim C9 -/

/-- Claim C9: for every question, answer and retrieved list — including the
empty one — the confidence score lies in `[0, 1]`. -/
theorem calculate_confidence_bounds (question answer : String) (chunks : List RChunk) :
    0 ≤ calculate_confidence question answer chunks
    ∧ calculate_confidence question answer chunks ≤ 1 := by
  unfold calculate_confidence
  by_cases hnil : chunks = []
  · simp [hnil]
  · rw [if_neg hnil]
    exact ⟨le_min (by norm_num) (confidence_core_nonneg answer chunks), min_le_left 1 _⟩

/-! ### Vector store and `QAAgent.setup_document` / `QAAgent.answer`

The ChromaDB client is modelled as a name-indexed family of collections; a
collection is a list of `(id, entry)` pairs.  `collection.add` keeps ids
unique within a collection: inserting an id that already exists is skipped
(Chroma logs "Insert of existing embedding ID" and never duplicates the
entry).  Embedding vectors are a deterministic function of the stored text
and play no role in entry counts, so an entry keeps the text and the
metadata that `setup_document` stores. -/

/-- Association-list lookup with decidable string keys. -/
def alookup {α : Type} (k : String) : List (String × α) → Option α
  | [] => none
  | p :: t => if p.1 = k then some p.2 else alookup k t

/-- One stored index entry: the chunk text plus the metadata dict
(`page`, `chunk_index`, `char_count`) that `setup_document` attaches. -/
structure IndexEntry where
  textDoc : String
  page : Int
  chunk_index : Nat
  char_count : Nat
deriving DecidableEq

/-- Model of `collection.add(...)`: append only those items whose id is not already
present. -/
def collectionAdd (coll items : List (String × IndexEntry)) :
    List (String × IndexEntry) :=
  coll ++ items.filter (fun it => (alookup it.1 coll).isNone)

/-- One input chunk as handed to `setup_document` (shape of the chunk dicts
produced by the chunker/reader). -/
structure InputChunk where
  text : String
  page : Int
  chunk_index : Nat
  char_count : Nat
deriving DecidableEq

/-- The document dict consumed by `setup_document`: its metadata source and
its chunk list. -/
structure Document where
  source : String
  chunks : List InputChunk
deriving DecidableEq

/-- The collection name `f"documind_{md5(source)[:8]}"`: the truncated md5 hex
digest is modelled as the source string itself — all that matters is that the
name is a deterministic function of the document source. -/
def collName (source : String) : String := "documind_" ++ source

/-- The mutable state of a `QAAgent`: whether the embedding model loaded, the
vector store (collections by name), and the currently selected collection. -/
@[ext]
structure QAState where
  embedAvailable : Bool
  store : String → Option (List (String × IndexEntry))
  current : Option String

/-- The id/entry pairs `setup_document` adds: ids `chunk_{i}` in chunk order,
entries carrying the chunk text and the stored metadata. -/
def entriesOf (chunks : List InputChunk) : List (String × IndexEntry) :=
  chunks.enum.map (fun p =>
    ("chunk_" ++ toString p.1,
      { textDoc := p.2.text, page := p.2.page,
        chunk_index := p.2.chunk_index, char_count := p.2.char_count }))

/-- The main branch of `setup_document`: get or create the document's
collection, add the chunk entries, and select the collection. -/
def setupMain (st : QAState) (doc : Document) : QAState :=
  { st with
    store := fun k => if k = collName doc.source then
        some (collectionAdd ((st.store (collName doc.source)).getD [])
          (entriesOf doc.chunks))
      else st.store k,
    current := some (collName doc.source) }

/-- Embedding of `QAAgent.setup_document(document)` (with the default `collection_name =
None`): no-op without an embedding model or without chunks; otherwise get or
create the document's collection and add the chunk entries to it. -/
def setup_document (st : QAState) (doc : Document) : QAState :=
  if st.embedAvailable = false then st
  else if doc.chunks = [] then st
  else setupMain st doc

/-- Number of entries of the named index. -/
def indexSize (st : QAState) (name : String) : Nat := ((st.store name).getD []).length

/-- The answer/citations/confidence dict returned by `QAAgent.answer`;
`relevant_chunks` is `none` for the sentinel dicts, which lack that key. -/
structure AnswerResult where
  answer : String
  citations : List (Int × String)
  confidence : ℚ
  relevant_chunks : Option Nat
deriving DecidableEq

/-- The citation dict built from one retrieved chunk. -/
def citationOf (c : RChunk) : Int × String :=
  (c.page, if 200 < c.text.length then pyTake 200 c.text ++ "..." else c.text)

/-- Embedding of `QAAgent.answer(question, top_k)` (with `return_citations = True`).  The
embedding of the question and the vector search are external services,
abstracted as the `retrieve` oracle; `sentTok` abstracts
`nltk.sent_tokenize`. -/
def qa_answer (st : QAState) (retrieve : String → Nat → List RChunk)
    (sentTok : String → List String) (question : String) (topK : Nat) : AnswerResult :=
  match st.current with
  | none =>
    { answer := "Document not set up for Q&A. Please call setup_document first.",
      citations := [], confidence := 0, relevant_chunks := none }
  | some _ =>
    let rel := retrieve question topK
    if rel = [] then
      { answer := "I couldn't find relevant information to answer your question in the document.",
        citations := [], confidence := 0, relevant_chunks := none }
    else
      let ans := generate_extractive_answer question rel
        (sentTok (String.intercalate "\n\n" (rel.map RChunk.text)))
      { answer := ans,
        citations := (rel.filter (fun c => decide (0 < c.page))).map citationOf,
        confidence := calculate_confidence question ans rel,
        relevant_chunks := some rel.length }

lemma alookup_append {α : Type} (k : String) (l₁ l₂ : List (String × α)) :
    alookup k (l₁ ++ l₂)
      = match alookup k l₁ with
        | some v => some v
        | none => alookup k l₂ := by
  induction l₁ with
  | nil => simp [alookup]
  | cons p t ih =>
    by_cases h : p.1 = k <;> simp [alookup, h, ih]

lemma alookup_isSome_of_mem_keys {α : Type} (k : String) (l : List (String × α))
    (h : ∃ v, (k, v) ∈ l) : (alookup k l).isSome := by
  induction l with
  | nil => simp at h
  | cons p t ih =>
    rcases h with ⟨v, hv⟩
    rcases List.mem_cons.mp hv with hv | hv
    · simp [alookup, ← hv]
    · by_cases hp : p.1 = k
      · simp [alookup, hp]
      · simpa [alookup, hp] using ih ⟨v, hv⟩

lemma collectionAdd_all_present (coll items : List (String × IndexEntry))
    (h : ∀ it ∈ items, (alookup it.1 coll).isSome) :
    collectionAdd coll items = coll := by
  unfold collectionAdd
  have : items.filter (fun it => (alookup it.1 coll).isNone) = [] := by
    rw [List.filter_eq_nil_iff]
    intro it hit
    have := h it hit
    simp only [Option.isNone_iff_eq_none, decide_eq_true_eq]
    intro hnone
    rw [hnone] at this
    simp at this
  rw [this, List.append_nil]

lemma collectionAdd_covers (coll items : List (String × IndexEntry)) :
    ∀ it ∈ items, (alookup it.1 (collectionAdd coll items)).isSome := by
  intro it hit
  unfold collectionAdd
  rw [alookup_append]
  cases hc : alookup it.1 coll with
  | some v => simp
  | none =>
    simp only []
    apply alookup_isSome_of_mem_keys
    exact ⟨it.2, List.mem_filter.mpr ⟨(by cases it; exact hit), by simp [hc]⟩⟩

lemma setupMain_idem (st : QAState) (doc : Document) :
    setupMain (setupMain st doc) doc = setupMain st doc := by
  have hall := collectionAdd_all_present
      (collectionAdd ((st.store (collName doc.source)).getD []) (entriesOf doc.chunks))
      (entriesOf doc.chunks)
      (collectionAdd_covers ((st.store (collName doc.source)).getD []) (entriesOf doc.chunks))
  apply QAState.ext
  · rfl
  · funext k
    by_cases hk : k = collName doc.source
    · subst hk
      simp [setupMain, hall]
    · simp [setupMain, hk]
  · rfl

/-! ### Claim C5 -/

/-- Claim C5: building the index a second time with the same document (hence
the same collection name and the same chunk ids) changes nothing: the second
`setup_document` reuses the existing collection, every `chunk_{i}` id is
already present so the add inserts no entry, and in particular the number of
entries of the document's index is unchanged. -/
theorem setup_document_idempotent (st : QAState) (doc : Document) :
    setup_document (setup_document st doc) doc = setup_document st doc
    ∧ indexSize (setup_document (setup_document st doc) doc) (collName doc.source)
        = indexSize (setup_document st doc) (collName doc.source) := by
  have hmain : setup_document (setup_document st doc) doc = setup_document st doc := by
    by_cases hemb : st.embedAvailable = false
    · have h1 : setup_document st doc = st := by
        unfold setup_document
        rw [if_pos hemb]
      rw [h1, h1]
    · by_cases hch : doc.chunks = []
      · have h1 : setup_document st doc = st := by
          unfold setup_document
          rw [if_neg hemb, if_pos hch]
        rw [h1, h1]
      · have h1 : setup_document st doc = setupMain st doc := by
          unfold setup_document
          rw [if_neg hemb, if_neg hch]
        have hemb2 : ¬ (setupMain st doc).embedAvailable = false := hemb
        have h2 : setup_document (setupMain st doc) doc = setupMain (setupMain st doc) doc := by
          unfold setup_document
          rw [if_neg hemb2, if_neg hch]
        rw [h1, h2]
        exact setupMain_idem st doc
  refine ⟨hmain, by rw [hmain]⟩

/-! ### Claim C6 -/

/-- Claim C6: on a fresh agent (no collection selected), `setup_document` with
a chunk-less document is a no-op, and any subsequent `answer` call returns the
sentinel not-ready result — the fixed message with empty citations and
confidence 0 — rather than failing. -/
theorem empty_document_not_ready (st : QAState) (doc : Document)
    (retrieve : String → Nat → List RChunk) (sentTok : String → List String)
    (question : String) (topK : Nat)
    (hchunks : doc.chunks = []) (hcur : st.current = none) :
    setup_document st doc = st
    ∧ qa_answer (setup_document st doc) retrieve sentTok question topK
        = { answer := "Document not set up for Q&A. Please call setup_document first.",
            citations := [], confidence := 0, relevant_chunks := none }
    ∧ (qa_answer (setup_document st doc) retrieve sentTok question topK).citations = []
    ∧ (qa_answer (setup_document st doc) retrieve sentTok question topK).confidence = 0 := by
  have hsetup : setup_document st doc = st := by
    unfold setup_document
    by_cases hemb : st.embedAvailable = false <;> simp [hemb, hchunks]
  have hans : qa_answer (setup_document st doc) retrieve sentTok question topK
      = { answer := "Document not set up for Q&A. Please call setup_document first.",
          citations := [], confidence := 0, relevant_chunks := none } := by
    rw [hsetup]
    unfold qa_answer
    rw [hcur]
  exact ⟨hsetup, hans, by rw [hans], by rw [hans]⟩

/-- Claim C6 witness: a concrete fresh agent and a concrete chunk-less
document satisfying the hypotheses, with the conclusion instantiated. -/
theorem empty_document_not_ready_witness :
    (Document.mk "doc.pdf" []).chunks = []
    ∧ (QAState.mk true (fun _ => none) none).current = none
    ∧ (setup_document (QAState.mk true (fun _ => none) none) (Document.mk "doc.pdf" [])
          = QAState.mk true (fun _ => none) none
        ∧ qa_answer (setup_document (QAState.mk true (fun _ => none) none)
              (Document.mk "doc.pdf" [])) (fun _ _ => []) (fun _ => []) "What?" 3
            = { answer := "Document not set up for Q&A. Please call setup_document first.",
                citations := [], confidence := 0, relevant_chunks := none }
        ∧ (qa_answer (setup_document (QAState.mk true (fun _ => none) none)
              (Document.mk "doc.pdf" [])) (fun _ _ => []) (fun _ => []) "What?" 3).citations = []
        ∧ (qa_answer (setup_document (QAState.mk true (fun _ => none) none)
              (Document.mk "doc.pdf" [])) (fun _ _ => []) (fun _ => []) "What?" 3).confidence
            = 0) :=
  ⟨rfl, rfl,
    empty_document_not_ready (QAState.mk true (fun _ => none) none)
      (Document.mk "doc.pdf" []) (fun _ _ => []) (fun _ => []) "What?" 3 rfl rfl⟩

/-! ## Memory bank — src/documind/memory/memory_bank.py

Timestamps (`datetime.now().isoformat()`) are modelled as integers measured
in days: ISO-format strings of datetimes compare exactly like the datetimes
themselves, and `timedelta(days=max_age_days)` is integer day arithmetic.
`self.memory` (a JSON dict keyed by document id) is an association list. -/

/-- One persisted record: `{insights, metadata, created_at, updated_at}`.
`updated_at` is optional because `compact_memory` reads it with
`data.get("updated_at", datetime.now().isoformat())`. -/
structure MemRecord where
  insights : List (String × String)
  metadata : List (String × String)
  created_at : Int
  updated_at : Option Int
deriving DecidableEq

/-- The persisted store `self.memory`. -/
abbrev Memory := List (String × MemRecord)

/-- Embedding of `MemoryBank.compact_memory(max_age_days)`: drop every record whose
(defaulted) `updated_at` is strictly older than `now - max_age_days`;
collecting `to_remove` and deleting afterwards is order-preserving
filtering. -/
def compact_memory (now max_age_days : Int) (mem : Memory) : Memory :=
  mem.filter (fun p => !decide (p.2.updated_at.getD now < now - max_age_days))

/-- Python `dict.update` on string-keyed dicts: values of existing keys are
overwritten in place, genuinely new keys are appended in their order. -/
def dictUpdate (old upd : List (String × String)) : List (String × String) :=
  (old.map (fun p =>
      (p.1, match alookup p.1 upd with | some v => v | none => p.2)))
    ++ upd.filter (fun q => (alookup q.1 old).isNone)

/-- The record mutation performed by `store_insights` on an existing record:
replace the insights wholesale, refresh `updated_at`, and — only when the
supplied metadata dict is truthy (`if metadata:`) — merge it into the
existing metadata. -/
def recUpdate (now : Int) (insights : List (String × String))
    (metadata : Option (List (String × String))) (r : MemRecord) : MemRecord :=
  match metadata with
  | some l =>
    if l.isEmpty then { r with insights := insights, updated_at := some now }
    else { r with insights := insights, updated_at := some now,
                  metadata := dictUpdate r.metadata l }
  | none => { r with insights := insights, updated_at := some now }

/-- Embedding of `MemoryBank.store_insights(document_id, insights, metadata)` (the
`_save_memory` disk write carries no information beyond the new state). -/
def store_insights (now : Int) (mem : Memory) (document_id : String)
    (insights : List (String × String))
    (metadata : Option (List (String × String))) : Memory :=
  let mem1 := if (alookup document_id mem).isSome then mem
    else mem ++ [(document_id,
      { insights := [], metadata := metadata.getD [],
        created_at := now, updated_at := some now })]
  mem1.map (fun p =>
    if p.1 = document_id then (p.1, recUpdate now insights metadata p.2) else p)

/-- The metadata keys `store_insights` actually merges: none when the
argument is `None` or the empty dict (both falsy in Python). -/
def suppliedMetadata (metadata : Option (List (String × String))) :
    List (String × String) :=
  match metadata with
  | some l => if l.isEmpty then [] else l
  | none => []

lemma alookup_update_self {α : Type} (k : String) (f : α → α) :
    ∀ m : List (String × α),
      alookup k (m.map (fun p => if p.1 = k then (p.1, f p.2) else p))
        = (alookup k m).map f := by
  intro m
  induction m with
  | nil => rfl
  | cons p t ih =>
    by_cases hp : p.1 = k <;> simp [alookup, hp, ih]

lemma alookup_update_other {α : Type} (k k' : String) (f : α → α) (h : k' ≠ k) :
    ∀ m : List (String × α),
      alookup k' (m.map (fun p => if p.1 = k then (p.1, f p.2) else p))
        = alookup k' m := by
  intro m
  induction m with
  | nil => rfl
  | cons p t ih =>
    have hkk : ¬ k = k' := fun hh => h hh.symm
    by_cases hp : p.1 = k
    · simp [alookup, hp, hkk, ih]
    · by_cases hp' : p.1 = k' <;> simp [alookup, hp, hp', h, hkk, ih]

lemma alookup_map_upd (upd : List (String × String)) (k : String) :
    ∀ old : List (String × String),
      alookup k (old.map (fun p =>
          (p.1, match alookup p.1 upd with | some v => v | none => p.2)))
        = (alookup k old).map
            (fun v => match alookup k upd with | some w => w | none => v) := by
  intro old
  induction old with
  | nil => rfl
  | cons p t ih =>
    by_cases hp : p.1 = k
    · subst hp
      simp [alookup, ih]
    · simp [alookup, hp, ih]

lemma alookup_filter_absent (old : List (String × String)) (k : String) :
    ∀ upd : List (String × String),
      alookup k (upd.filter (fun q => (alookup q.1 old).isNone))
        = if (alookup k old).isNone then alookup k upd else none := by
  intro upd
  induction upd with
  | nil => simp [alookup]
  | cons q t ih =>
    by_cases hq : q.1 = k
    · subst hq
      by_cases ho : (alookup q.1 old).isNone
      · simp [List.filter_cons, ho, alookup, ih]
      · simp [List.filter_cons, ho, alookup, ih]
    · by_cases ho : (alookup q.1 old).isNone
      · simp [List.filter_cons, ho, alookup, hq, ih]
      · simp [List.filter_cons, ho, alookup, hq, ih]

lemma dictUpdate_lookup (old upd : List (String × String)) (k : String) :
    alookup k (dictUpdate old upd)
      = match alookup k upd with
        | some v => some v
        | none => alookup k old := by
  unfold dictUpdate
  rw [alookup_append, alookup_map_upd, alookup_filter_absent]
  cases hu : alookup k upd with
  | some v => cases ho : alookup k old <;> simp [hu, ho]
  | none => cases ho : alookup k old <;> simp [hu, ho]

/-! ### Claim C8 -/

/-- Claim C8: `compact_memory` retains exactly the records whose (defaulted)
`updated_at` is not older than `now - max_age_days` and removes all others;
concretely, with a 90-day maximum age, a record last updated 120 days ago is
removed and one updated 10 days ago is retained. -/
theorem compact_memory_spec :
    (∀ (now d : Int) (mem : Memory) (p : String × MemRecord),
        p ∈ compact_memory now d mem
          ↔ p ∈ mem ∧ ¬ (p.2.updated_at.getD now < now - d))
    ∧ compact_memory 0 90
        [("old", { insights := [], metadata := [], created_at := -120,
                   updated_at := some (-120) }),
         ("new", { insights := [], metadata := [], created_at := -10,
                   updated_at := some (-10) })]
      = [("new", { insights := [], metadata := [], created_at := -10,
                   updated_at := some (-10) })] := by
  constructor
  · intro now d mem p
    rw [compact_memory, List.mem_filter]
    simp
  · decide

/-! ### Claim C10 -/

/-- Claim C10: for a document id already present with record `r`,
`store_insights` replaces the record's insights wholesale, stamps
`updated_at` with the current time, merges the supplied (truthy) metadata
keys into the existing metadata — keys not supplied keep their existing
values — and leaves `created_at` as well as every other document's record
unchanged. -/
theorem store_insights_frame (now : Int) (mem : Memory) (document_id : String)
    (insights : List (String × String))
    (metadata : Option (List (String × String)))
    (r : MemRecord) (h : alookup document_id mem = some r) :
    (∃ r', alookup document_id (store_insights now mem document_id insights metadata) = some r'
        ∧ r'.insights = insights
        ∧ r'.updated_at = some now
        ∧ r'.created_at = r.created_at
        ∧ ∀ key, alookup key r'.metadata
            = match alookup key (suppliedMetadata metadata) with
              | some v => some v
              | none => alookup key r.metadata)
    ∧ ∀ k, k ≠ document_id →
        alookup k (store_insights now mem document_id insights metadata) = alookup k mem := by
  have hmem1 : store_insights now mem document_id insights metadata
      = mem.map (fun p =>
          if p.1 = document_id then (p.1, recUpdate now insights metadata p.2) else p) := by
    unfold store_insights
    rw [h]
    simp
  constructor
  · refine ⟨recUpdate now insights metadata r, ?_, ?_, ?_, ?_, ?_⟩
    · rw [hmem1, alookup_update_self, h]
      rfl
    · unfold recUpdate
      cases metadata with
      | none => rfl
      | some l => by_cases hl : l.isEmpty <;> simp [hl]
    · unfold recUpdate
      cases metadata with
      | none => rfl
      | some l => by_cases hl : l.isEmpty <;> simp [hl]
    · unfold recUpdate
      cases metadata with
      | none => rfl
      | some l => by_cases hl : l.isEmpty <;> simp [hl]
    · intro key
      unfold recUpdate suppliedMetadata
      cases metadata with
      | none => simp [alookup]
      | some l =>
        by_cases hl : l.isEmpty
        · simp [hl, alookup]
        · simp only [hl, ite_false, Bool.false_eq_true]
          exact dictUpdate_lookup r.metadata l key
  · intro k hk
    rw [hmem1, alookup_update_other _ _ _ hk]

/-- Claim C10 witness: a concrete store holding two documents; updating one of
them satisfies the hypothesis and the instantiated conclusion. -/
theorem store_insights_frame_witness :
    alookup "doc"
        [("doc", MemRecord.mk [("a", "1")] [("m", "x")] 5 (some 5)),
         ("other", MemRecord.mk [] [] 2 (some 2))]
      = some (MemRecord.mk [("a", "1")] [("m", "x")] 5 (some 5))
    ∧ ((∃ r', alookup "doc"
          (store_insights 9
            [("doc", MemRecord.mk [("a", "1")] [("m", "x")] 5 (some 5)),
             ("other", MemRecord.mk [] [] 2 (some 2))]
            "doc" [("b", "2")] (some [("m", "y"), ("n", "z")])) = some r'
        ∧ r'.insights = [("b", "2")]
        ∧ r'.updated_at = some 9
        ∧ r'.created_at = (MemRecord.mk [("a", "1")] [("m", "x")] 5 (some 5)).created_at
        ∧ ∀ key, alookup key r'.metadata
            = match alookup key (suppliedMetadata (some [("m", "y"), ("n", "z")])) with
              | some v => some v
              | none => alookup key (MemRecord.mk [("a", "1")] [("m", "x")] 5 (some 5)).metadata)
      ∧ ∀ k, k ≠ "doc" →
          alookup k
            (store_insights 9
              [("doc", MemRecord.mk [("a", "1")] [("m", "x")] 5 (some 5)),
               ("other", MemRecord.mk [] [] 2 (some 2))]
              "doc" [("b", "2")] (some [("m", "y"), ("n", "z")]))
            = alookup k
              [("doc", MemRecord.mk [("a", "1")] [("m", "x")] 5 (some 5)),
               ("other", MemRecord.mk [] [] 2 (some 2))]) :=
  ⟨rfl,
    store_insights_frame 9
      [("doc", MemRecord.mk [("a", "1")] [("m", "x")] 5 (some 5)),
       ("other", MemRecord.mk [] [] 2 (some 2))]
      "doc" [("b", "2")] (some [("m", "y"), ("n", "z")])
      (MemRecord.mk [("a", "1")] [("m", "x")] 5 (some 5)) rfl⟩

end Documind
